import Mathlib

/-!
Verification of the three-way mixing-valve controller
(`components/three_way_valve/valve/three_wah_valve.h` and
`components/three_way_valve/valve/three_way_valve.cpp`).

The embedding models C++ `float` arithmetic by exact rational arithmetic
(`ℚ`) and the signed 32-bit actuator coordinates by `ℤ` (the claims never
reach the overflow range).  `int32_t(e)` on a floating value, which
truncates toward zero, is modelled by `truncQ`.  Methods that command the
stepper are modelled as functions from the whole system state to the new
system state paired with the list of `set_target` commands issued during
the call, so that frame conditions ("issues exactly one command", "issues
none") are visible in the result.
-/

namespace three_way_valve

/-- A calibration-curve control point (`struct CurvePoint { float x; float y; }`). -/
structure CurvePoint where
  x : ℚ
  y : ℚ
deriving DecidableEq

/-- The scan loop of `ThreeWayValve::get_flow`: walks consecutive pairs
`(p, q)` of curve points; on the first segment with `p.x ≤ x ≤ q.x` it
linearly interpolates, and if the loop runs out it returns the last
point's `y` (the C++ `return this->mixer_curve_.back().y;` fall-through). -/
def interp_segments : CurvePoint → List CurvePoint → ℚ → ℚ
  | p, [], _ => p.y
  | p, q :: rest, x =>
      if p.x ≤ x ∧ x ≤ q.x then p.y + ((x - p.x) / (q.x - p.x)) * (q.y - p.y)
      else interp_segments q rest x

/-- `ThreeWayValve::get_flow` (forward evaluation, position fraction to flow
fraction): identity on the empty curve, clamp to the first point's `y`
below the first `x`, clamp to the last point's `y` at or above the last
`x`, otherwise interpolate on the first bracketing segment. -/
def get_flow (curve : List CurvePoint) (x : ℚ) : ℚ :=
  match curve with
  | [] => x
  | p :: rest =>
    if x ≤ p.x then p.y
    else if (rest.getLastD p).x ≤ x then (rest.getLastD p).y
    else interp_segments p rest x

/-- The scan loop of `ThreeWayValve::get_pos`: same as `interp_segments`
with the roles of `x` and `y` swapped. -/
def interp_segments_inv : CurvePoint → List CurvePoint → ℚ → ℚ
  | p, [], _ => p.x
  | p, q :: rest, y =>
      if p.y ≤ y ∧ y ≤ q.y then p.x + ((y - p.y) / (q.y - p.y)) * (q.x - p.x)
      else interp_segments_inv q rest y

/-- `ThreeWayValve::get_pos` (inverse evaluation, flow fraction to position
fraction): `get_flow` with the roles of `x` and `y` swapped. -/
def get_pos (curve : List CurvePoint) (y : ℚ) : ℚ :=
  match curve with
  | [] => y
  | p :: rest =>
    if y ≤ p.y then p.x
    else if (rest.getLastD p).y ≤ y then (rest.getLastD p).x
    else interp_segments_inv p rest y

/-- Defensive variant of the `get_flow` scan loop that reports `none`
instead of dividing by zero on a zero-width segment.  Used to state that
the source's (unguarded) interpolation never actually divides by zero. -/
def interp_segmentsD : CurvePoint → List CurvePoint → ℚ → Option ℚ
  | p, [], _ => some p.y
  | p, q :: rest, x =>
      if p.x ≤ x ∧ x ≤ q.x then
        if q.x - p.x = 0 then none
        else some (p.y + ((x - p.x) / (q.x - p.x)) * (q.y - p.y))
      else interp_segmentsD q rest x

/-- Defensive variant of `get_flow`: `none` exactly when the evaluation
would divide by zero. -/
def get_flowD (curve : List CurvePoint) (x : ℚ) : Option ℚ :=
  match curve with
  | [] => some x
  | p :: rest =>
    if x ≤ p.x then some p.y
    else if (rest.getLastD p).x ≤ x then some (rest.getLastD p).y
    else interp_segmentsD p rest x

/-- Defensive variant of the `get_pos` scan loop. -/
def interp_segments_invD : CurvePoint → List CurvePoint → ℚ → Option ℚ
  | p, [], _ => some p.x
  | p, q :: rest, y =>
      if p.y ≤ y ∧ y ≤ q.y then
        if q.y - p.y = 0 then none
        else some (p.x + ((y - p.y) / (q.y - p.y)) * (q.x - p.x))
      else interp_segments_invD q rest y

/-- Defensive variant of `get_pos`: `none` exactly when the evaluation
would divide by zero. -/
def get_posD (curve : List CurvePoint) (y : ℚ) : Option ℚ :=
  match curve with
  | [] => some y
  | p :: rest =>
    if y ≤ p.y then some p.x
    else if (rest.getLastD p).y ≤ y then some (rest.getLastD p).x
    else interp_segments_invD p rest y

/-- Modelled from the spec: the default, built-in 11-point calibration
curve (the global `mixer_curve` that the implementation file and the tests
reference is missing from the sources; only the default-empty member
`mixer_curve_` is present).  Control points at x = 0.0, 0.1, ..., 1.0 with
an S-shaped y response concentrating resolution near the extremes and
passing through (0.5, 0.5) exactly. -/
def mixer_curve : List CurvePoint :=
  [⟨0, 0⟩, ⟨1/10, 1/100⟩, ⟨2/10, 5/100⟩, ⟨3/10, 15/100⟩, ⟨4/10, 3/10⟩,
   ⟨1/2, 1/2⟩, ⟨6/10, 7/10⟩, ⟨7/10, 85/100⟩, ⟨8/10, 95/100⟩, ⟨9/10, 99/100⟩, ⟨1, 1⟩]

/-- The C++ conversion `int32_t(e)` of a floating-point value: truncation
toward zero. -/
def truncQ (q : ℚ) : ℤ := if q < 0 then ⌈q⌉ else ⌊q⌋

/-- The mock framework's `ValveCall`: a `stop` flag and optional `toggle`
and `position` fields. -/
structure ValveCall where
  stop_ : Bool
  toggle_ : Option Bool
  position_ : Option ℚ

/-- The configuration carried by `ThreeWayValve`: the four calibrated
absolute actuator coordinates and the calibration curve. -/
structure ThreeWayValve where
  pos_closed_ : ℤ
  pos_open_ : ℤ
  pos_block_ : ℤ
  pos_all_open_ : ℤ
  mixer_curve_ : List CurvePoint
deriving DecidableEq

/-- The mock `Stepper`: a live current position and a commanded target. -/
structure Stepper where
  current_position : ℤ
  target_position : ℤ
deriving DecidableEq

/-- `Stepper::set_target`. -/
def Stepper.set_target (s : Stepper) (t : ℤ) : Stepper :=
  { s with target_position := t }

/-- The whole mutable state a `ThreeWayValve` method can touch: the valve's
own configuration and the stepper it points to. -/
structure SysState where
  valve : ThreeWayValve
  stepper : Stepper
deriving DecidableEq

/-- The tolerance computation inside `ThreeWayValve::get_valve_state`:
`int32_t tol = int32_t(std::abs(range) * 0.001f); if (tol < 1) tol = 1;`. -/
def valve_tol (v : ThreeWayValve) : ℤ :=
  let range := v.pos_open_ - v.pos_closed_
  let tol := truncQ ((|range| : ℚ) * (1/1000))
  if tol < 1 then 1 else tol

/-- `ThreeWayValve::control_valve` (`set_flow`): clamp the flow to [0,1],
inverse-map it through the curve, scale to an absolute coordinate,
truncate, and command the stepper once. -/
def control_valve (s : SysState) (flow : ℚ) : SysState × List ℤ :=
  let f1 := if flow < 0 then 0 else flow
  let f2 := if f1 > 1 then 1 else f1
  let position := get_pos s.valve.mixer_curve_ f2
  let target : ℤ :=
    truncQ ((s.valve.pos_closed_ : ℚ) +
      position * ((s.valve.pos_open_ : ℚ) - (s.valve.pos_closed_ : ℚ)))
  ({ s with stepper := s.stepper.set_target target }, [target])

/-- The value computed by `ThreeWayValve::get_valve_state` (`read_flow`):
snap to 0.0 within tolerance of the closed coordinate, to 1.0 within
tolerance of the open coordinate, otherwise normalize, clamp and
forward-map through the curve. -/
def get_valve_state_val (s : SysState) : ℚ :=
  let cur := s.stepper.current_position
  let tol := valve_tol s.valve
  if |cur - s.valve.pos_closed_| < tol then 0
  else if |cur - s.valve.pos_open_| < tol then 1
  else
    let position := ((cur - s.valve.pos_closed_ : ℤ) : ℚ) /
      ((s.valve.pos_open_ - s.valve.pos_closed_ : ℤ) : ℚ)
    let position1 := if position < 0 then 0 else if position > 1 then 1 else position
    get_flow s.valve.mixer_curve_ position1

/-- `ThreeWayValve::get_valve_state` as a method call: it writes nothing
and issues no stepper command, returning only the read-back flow. -/
def get_valve_state (s : SysState) : SysState × List ℤ × ℚ :=
  (s, [], get_valve_state_val s)

/-- `ThreeWayValve::park_valve`: one `set_target` to the blocked coordinate. -/
def park_valve (s : SysState) : SysState × List ℤ :=
  ({ s with stepper := s.stepper.set_target s.valve.pos_block_ }, [s.valve.pos_block_])

/-- `ThreeWayValve::open_all_valve`: one `set_target` to the all-open coordinate. -/
def open_all_valve (s : SysState) : SysState × List ℤ :=
  ({ s with stepper := s.stepper.set_target s.valve.pos_all_open_ }, [s.valve.pos_all_open_])

/-- `ThreeWayValve::control`: the command dispatcher.  Stop returns
immediately; a present toggle field reads the current flow and drives to
1.0 below 0.5 and to 0.0 otherwise; a present position drives to it; the
default drives to 0.0. -/
def control (s : SysState) (call : ValveCall) : SysState × List ℤ :=
  if call.stop_ then (s, [])
  else
    match call.toggle_ with
    | some _ =>
        let r := get_valve_state s
        let r2 := control_valve r.1 (if r.2.2 < 1/2 then 1 else 0)
        (r2.1, r.2.1 ++ r2.2)
    | none =>
        match call.position_ with
        | some flow => control_valve s flow
        | none => control_valve s 0

/-- The monotonicity relation the spec asks callers to maintain on curves:
strictly increasing x, non-decreasing y. -/
def curveR (a b : CurvePoint) : Prop := a.x < b.x ∧ a.y ≤ b.y

/-- The last element of a list with default, when the list is an append
ending in a nonempty tail. -/
theorem getLastD_append_cons (l : List CurvePoint) (a : CurvePoint)
    (t : List CurvePoint) (d : CurvePoint) :
    (l ++ a :: t).getLastD d = t.getLastD a := by
  induction l generalizing d with
  | nil => rw [List.nil_append, List.getLastD_cons]
  | cons b l ih => rw [List.cons_append, List.getLastD_cons, ih]

/-- Entering the scan strictly to the right of the head point, the scan
never meets a zero-width segment: the defensive evaluation agrees with the
source's. -/
theorem interp_segmentsD_eq (rest : List CurvePoint) :
    ∀ (p : CurvePoint) (x : ℚ), p.x < x →
      interp_segmentsD p rest x = some (interp_segments p rest x) := by
  induction rest with
  | nil => intro p x _; rfl
  | cons q rs ih =>
    intro p x hx
    by_cases hm : p.x ≤ x ∧ x ≤ q.x
    · have hd : ¬ (q.x - p.x = 0) := by
        have hpq : p.x < q.x := lt_of_lt_of_le hx hm.2
        intro h
        have : q.x = p.x := by linarith
        linarith
      rw [interp_segmentsD, if_pos hm, if_neg hd, interp_segments, if_pos hm]
    · have hq : q.x < x := by
        rcases not_and_or.mp hm with h | h
        · exact absurd hx.le h
        · exact lt_of_not_le h
      rw [interp_segmentsD, if_neg hm, interp_segments, if_neg hm]
      exact ih q x hq

/-- `get_flow` never divides by zero: the defensive evaluation always
succeeds, with the same value. -/
theorem get_flowD_eq (curve : List CurvePoint) (x : ℚ) :
    get_flowD curve x = some (get_flow curve x) := by
  match curve with
  | [] => rfl
  | p :: rest =>
    simp only [get_flowD, get_flow]
    split_ifs with h1 h2
    · rfl
    · rfl
    · exact interp_segmentsD_eq rest p x (lt_of_not_le h1)

/-- Dual of `interp_segmentsD_eq` for the inverse scan. -/
theorem interp_segments_invD_eq (rest : List CurvePoint) :
    ∀ (p : CurvePoint) (y : ℚ), p.y < y →
      interp_segments_invD p rest y = some (interp_segments_inv p rest y) := by
  induction rest with
  | nil => intro p y _; rfl
  | cons q rs ih =>
    intro p y hy
    by_cases hm : p.y ≤ y ∧ y ≤ q.y
    · have hd : ¬ (q.y - p.y = 0) := by
        have hpq : p.y < q.y := lt_of_lt_of_le hy hm.2
        intro h
        have : q.y = p.y := by linarith
        linarith
      rw [interp_segments_invD, if_pos hm, if_neg hd, interp_segments_inv, if_pos hm]
    · have hq : q.y < y := by
        rcases not_and_or.mp hm with h | h
        · exact absurd hy.le h
        · exact lt_of_not_le h
      rw [interp_segments_invD, if_neg hm, interp_segments_inv, if_neg hm]
      exact ih q y hq

/-- `get_pos` never divides by zero either. -/
theorem get_posD_eq (curve : List CurvePoint) (y : ℚ) :
    get_posD curve y = some (get_pos curve y) := by
  match curve with
  | [] => rfl
  | p :: rest =>
    simp only [get_posD, get_pos]
    split_ifs with h1 h2
    · rfl
    · rfl
    · exact interp_segments_invD_eq rest p y (lt_of_not_le h1)

/-- The scan over points that all lie strictly left of `c`, followed by a
zero-width segment at `c`, lands on the segment arriving at `c` with
interpolation parameter 1 and so returns the degenerate segment's start
value. -/
theorem interp_at_degenerate (suf : List CurvePoint) (c y0 y1 : ℚ) :
    ∀ (pre : List CurvePoint) (p0 : CurvePoint), (∀ p ∈ p0 :: pre, p.x < c) →
      interp_segments p0 (pre ++ ⟨c, y0⟩ :: ⟨c, y1⟩ :: suf) c = y0 := by
  intro pre
  induction pre with
  | nil =>
    intro p0 hall
    have h0 : p0.x < c := hall p0 (by simp)
    have hd : c - p0.x ≠ 0 := by intro h; linarith [sub_eq_zero.mp h]
    rw [List.nil_append, interp_segments, if_pos ⟨h0.le, le_refl c⟩, div_self hd]
    ring
  | cons p1 pre ih =>
    intro p0 hall
    have h1 : p1.x < c := hall p1 (by simp)
    rw [List.cons_append, interp_segments,
      if_neg (fun hh => absurd hh.2 (not_le.mpr h1))]
    exact ih p1 (fun p hp => hall p (by simp at hp ⊢; tauto))

/-- `get_flow` at the x of an interior degenerate segment returns the
segment's start value. -/
theorem get_flow_at_degenerate (pre suf : List CurvePoint) (c y0 y1 : ℚ)
    (hpre : ∀ p ∈ pre, p.x < c)
    (hlast : c < (suf.getLastD ⟨c, y1⟩).x) :
    get_flow (pre ++ ⟨c, y0⟩ :: ⟨c, y1⟩ :: suf) c = y0 := by
  match pre, hpre with
  | [], _ =>
    simp only [List.nil_append, get_flow]
    rw [if_pos (le_refl c)]
  | p0 :: pre, hpre =>
    have h0 : p0.x < c := hpre p0 (by simp)
    simp only [List.cons_append, get_flow]
    rw [getLastD_append_cons pre (⟨c, y0⟩ : CurvePoint) (⟨c, y1⟩ :: suf) p0,
      List.getLastD_cons, if_neg (not_le.mpr h0), if_neg (not_le.mpr hlast)]
    exact interp_at_degenerate suf c y0 y1 pre p0 hpre

/-- Dual of `getLastD_append_cons` usage and `interp_at_degenerate` for the
inverse scan. -/
theorem interp_inv_at_degenerate (suf : List CurvePoint) (c x0 x1 : ℚ) :
    ∀ (pre : List CurvePoint) (p0 : CurvePoint), (∀ p ∈ p0 :: pre, p.y < c) →
      interp_segments_inv p0 (pre ++ ⟨x0, c⟩ :: ⟨x1, c⟩ :: suf) c = x0 := by
  intro pre
  induction pre with
  | nil =>
    intro p0 hall
    have h0 : p0.y < c := hall p0 (by simp)
    have hd : c - p0.y ≠ 0 := by intro h; linarith [sub_eq_zero.mp h]
    rw [List.nil_append, interp_segments_inv, if_pos ⟨h0.le, le_refl c⟩, div_self hd]
    ring
  | cons p1 pre ih =>
    intro p0 hall
    have h1 : p1.y < c := hall p1 (by simp)
    rw [List.cons_append, interp_segments_inv,
      if_neg (fun hh => absurd hh.2 (not_le.mpr h1))]
    exact ih p1 (fun p hp => hall p (by simp at hp ⊢; tauto))

/-- `get_pos` at the y of an interior degenerate segment returns the
segment's start x. -/
theorem get_pos_at_degenerate (pre suf : List CurvePoint) (c x0 x1 : ℚ)
    (hpre : ∀ p ∈ pre, p.y < c)
    (hlast : c < (suf.getLastD ⟨x1, c⟩).y) :
    get_pos (pre ++ ⟨x0, c⟩ :: ⟨x1, c⟩ :: suf) c = x0 := by
  match pre, hpre with
  | [], _ =>
    simp only [List.nil_append, get_pos]
    rw [if_pos (le_refl c)]
  | p0 :: pre, hpre =>
    have h0 : p0.y < c := hpre p0 (by simp)
    simp only [List.cons_append, get_pos]
    rw [getLastD_append_cons pre (⟨x0, c⟩ : CurvePoint) (⟨x1, c⟩ :: suf) p0,
      List.getLastD_cons, if_neg (not_le.mpr h0), if_neg (not_le.mpr hlast)]
    exact interp_inv_at_degenerate suf c x0 x1 pre p0 hpre

/-- Along a `curveR`-chain the y of the head is at most the y of the last
point. -/
theorem chain_y_le_last (rest : List CurvePoint) :
    ∀ p : CurvePoint, List.Chain' curveR (p :: rest) →
      p.y ≤ (rest.getLastD p).y := by
  induction rest with
  | nil => intro p _; rw [List.getLastD_nil]
  | cons q rs ih =>
    intro p hc
    obtain ⟨hpq, hc2⟩ := List.chain'_cons.mp hc
    rw [List.getLastD_cons]
    exact le_trans hpq.2 (ih q hc2)

/-- On a monotone curve the scan value is at least the head's y whenever
the input is at or right of the head's x. -/
theorem interp_ge_head (rest : List CurvePoint) :
    ∀ (p : CurvePoint) (x : ℚ), List.Chain' curveR (p :: rest) → p.x ≤ x →
      p.y ≤ interp_segments p rest x := by
  induction rest with
  | nil => intro p x _ _; rw [interp_segments]
  | cons q rs ih =>
    intro p x hc hx
    obtain ⟨hpq, hc2⟩ := List.chain'_cons.mp hc
    by_cases hm : p.x ≤ x ∧ x ≤ q.x
    · rw [interp_segments, if_pos hm]
      have hd : 0 < q.x - p.x := by linarith [hpq.1]
      have ht : 0 ≤ (x - p.x) / (q.x - p.x) := div_nonneg (by linarith) hd.le
      have := mul_nonneg ht (sub_nonneg.mpr hpq.2)
      linarith
    · rw [interp_segments, if_neg hm]
      have hq : q.x ≤ x := by
        rcases not_and_or.mp hm with h | h
        · exact absurd hx h
        · exact le_of_not_le h
      exact le_trans hpq.2 (ih q x hc2 hq)

/-- On a monotone curve the scan value is at most the last point's y. -/
theorem interp_le_last (rest : List CurvePoint) :
    ∀ (p : CurvePoint) (x : ℚ), List.Chain' curveR (p :: rest) →
      interp_segments p rest x ≤ (rest.getLastD p).y := by
  induction rest with
  | nil => intro p x _; rw [interp_segments, List.getLastD_nil]
  | cons q rs ih =>
    intro p x hc
    obtain ⟨hpq, hc2⟩ := List.chain'_cons.mp hc
    rw [List.getLastD_cons]
    by_cases hm : p.x ≤ x ∧ x ≤ q.x
    · rw [interp_segments, if_pos hm]
      have hd : 0 < q.x - p.x := by linarith [hpq.1]
      have ht : (x - p.x) / (q.x - p.x) ≤ 1 := by
        rw [div_le_one hd]; linarith [hm.2]
      have h1 : p.y + ((x - p.x) / (q.x - p.x)) * (q.y - p.y) ≤ q.y := by
        have := mul_le_mul_of_nonneg_right ht (sub_nonneg.mpr hpq.2)
        linarith
      exact le_trans h1 (chain_y_le_last rs q hc2)
    · rw [interp_segments, if_neg hm]
      exact ih q x hc2

/-- The scan is monotone in its input on a monotone curve, for inputs at or
right of the head's x. -/
theorem interp_mono (rest : List CurvePoint) :
    ∀ (p : CurvePoint) (x1 x2 : ℚ), List.Chain' curveR (p :: rest) →
      p.x ≤ x1 → x1 ≤ x2 →
      interp_segments p rest x1 ≤ interp_segments p rest x2 := by
  induction rest with
  | nil => intro p x1 x2 _ _ _; rw [interp_segments, interp_segments]
  | cons q rs ih =>
    intro p x1 x2 hc hx1 h12
    obtain ⟨hpq, hc2⟩ := List.chain'_cons.mp hc
    have hd : 0 < q.x - p.x := by linarith [hpq.1]
    have hΔ : 0 ≤ q.y - p.y := sub_nonneg.mpr hpq.2
    by_cases hm1 : p.x ≤ x1 ∧ x1 ≤ q.x
    · by_cases hm2 : p.x ≤ x2 ∧ x2 ≤ q.x
      · rw [interp_segments, if_pos hm1, interp_segments, if_pos hm2]
        have ht : (x1 - p.x) / (q.x - p.x) ≤ (x2 - p.x) / (q.x - p.x) :=
          div_le_div_of_nonneg_right (by linarith) hd.le
        have := mul_le_mul_of_nonneg_right ht hΔ
        linarith
      · have hq2 : q.x ≤ x2 := by
          rcases not_and_or.mp hm2 with h | h
          · exact absurd (hx1.trans h12) h
          · exact le_of_not_le h
        rw [interp_segments, if_pos hm1, interp_segments, if_neg hm2]
        have hub : p.y + ((x1 - p.x) / (q.x - p.x)) * (q.y - p.y) ≤ q.y := by
          have ht1 : (x1 - p.x) / (q.x - p.x) ≤ 1 := by
            rw [div_le_one hd]; linarith [hm1.2]
          have := mul_le_mul_of_nonneg_right ht1 hΔ
          linarith
        exact le_trans hub (interp_ge_head rs q x2 hc2 hq2)
    · have hq1 : q.x ≤ x1 := by
        rcases not_and_or.mp hm1 with h | h
        · exact absurd hx1 h
        · exact le_of_not_le h
      have hm2 : ¬ (p.x ≤ x2 ∧ x2 ≤ q.x) := fun hh => hm1 ⟨hx1, by linarith [hh.2]⟩
      rw [interp_segments, if_neg hm1, interp_segments, if_neg hm2]
      exact ih q x1 x2 hc2 hq1 h12

/-- Forward evaluation is monotone non-decreasing on a monotone curve. -/
theorem get_flow_mono (curve : List CurvePoint)
    (hc : List.Chain' curveR curve) {x1 x2 : ℚ} (h12 : x1 ≤ x2) :
    get_flow curve x1 ≤ get_flow curve x2 := by
  match curve with
  | [] => simpa [get_flow] using h12
  | p :: rest =>
    simp only [get_flow]
    by_cases hl1 : x1 ≤ p.x
    · rw [if_pos hl1]
      by_cases hl2 : x2 ≤ p.x
      · rw [if_pos hl2]
      · rw [if_neg hl2]
        by_cases hh2 : (rest.getLastD p).x ≤ x2
        · rw [if_pos hh2]
          exact chain_y_le_last rest p hc
        · rw [if_neg hh2]
          exact interp_ge_head rest p x2 hc (le_of_not_le hl2)
    · have hl2 : ¬ x2 ≤ p.x := fun h => hl1 (h12.trans h)
      rw [if_neg hl1, if_neg hl2]
      by_cases hh1 : (rest.getLastD p).x ≤ x1
      · rw [if_pos hh1, if_pos (hh1.trans h12)]
      · rw [if_neg hh1]
        by_cases hh2 : (rest.getLastD p).x ≤ x2
        · rw [if_pos hh2]
          exact interp_le_last rest p x1 hc
        · rw [if_neg hh2]
          exact interp_mono rest p x1 x2 hc (le_of_not_le hl1) h12

/-- When every curve y lies in [0,1], the scan value lies in [0,1] for
inputs strictly right of the head's x (any curve, monotone or not). -/
theorem interp_bounds (rest : List CurvePoint) :
    ∀ (p : CurvePoint) (x : ℚ), p.x < x →
      (∀ r ∈ p :: rest, 0 ≤ r.y ∧ r.y ≤ 1) →
      0 ≤ interp_segments p rest x ∧ interp_segments p rest x ≤ 1 := by
  induction rest with
  | nil =>
    intro p x _ hall
    rw [interp_segments]
    exact hall p (by simp)
  | cons q rs ih =>
    intro p x hx hall
    by_cases hm : p.x ≤ x ∧ x ≤ q.x
    · rw [interp_segments, if_pos hm]
      have hd : 0 < q.x - p.x := by linarith [hm.2]
      have hp := hall p (by simp)
      have hq := hall q (by simp)
      have ht0 : 0 ≤ (x - p.x) / (q.x - p.x) := div_nonneg (by linarith) hd.le
      have ht1 : (x - p.x) / (q.x - p.x) ≤ 1 := by
        rw [div_le_one hd]; linarith [hm.2]
      constructor
      · nlinarith [mul_nonneg ht0 hq.1, mul_nonneg (sub_nonneg.mpr ht1) hp.1]
      · nlinarith [mul_nonneg ht0 (sub_nonneg.mpr hq.2),
          mul_nonneg (sub_nonneg.mpr ht1) (sub_nonneg.mpr hp.2)]
    · rw [interp_segments, if_neg hm]
      have hq : q.x < x := by
        rcases not_and_or.mp hm with h | h
        · exact absurd hx.le h
        · exact lt_of_not_le h
      refine ih q x hq (fun r hr => hall r ?_)
      simp only [List.mem_cons] at hr ⊢
      tauto

/-- When every curve y lies in [0,1] and the input is clamped to [0,1],
`get_flow` returns a value in [0,1]. -/
theorem get_flow_bounds (curve : List CurvePoint) (x : ℚ)
    (hall : ∀ r ∈ curve, 0 ≤ r.y ∧ r.y ≤ 1) (hx0 : 0 ≤ x) (hx1 : x ≤ 1) :
    0 ≤ get_flow curve x ∧ get_flow curve x ≤ 1 := by
  match curve with
  | [] => exact ⟨hx0, hx1⟩
  | p :: rest =>
    simp only [get_flow]
    split_ifs with h1 h2
    · exact hall p (by simp)
    · exact hall _ (List.getLastD_mem_cons rest p)
    · exact interp_bounds rest p x (lt_of_not_le h1) hall

/-- **C8.** On the empty curve, both forward evaluation (`get_flow`) and
inverse evaluation (`get_pos`) return their input unchanged. -/
theorem empty_curve_identity (x : ℚ) : get_flow [] x = x ∧ get_pos [] x = x :=
  ⟨rfl, rfl⟩

/-- **C3.** `control_valve` clamps: below 0 it behaves exactly like flow 0,
above 1 exactly like flow 1 — same resulting state and same issued
command. -/
theorem control_valve_clamps (s : SysState) (flow : ℚ) :
    (flow < 0 → control_valve s flow = control_valve s 0) ∧
    (flow > 1 → control_valve s flow = control_valve s 1) := by
  constructor
  · intro h
    have h1 : ¬ ((0 : ℚ) < 0) := by norm_num
    simp only [control_valve, if_pos h, if_neg h1]
  · intro h
    have h0 : ¬ flow < 0 := by linarith
    have h2 : ¬ ((1 : ℚ) < 0) := by norm_num
    have h3 : ¬ ((1 : ℚ) > 1) := by norm_num
    simp only [control_valve, if_neg h0, if_pos h, if_neg h2, if_neg h3]

/-- Witness for C3 at flow = -1 and flow = 2. -/
theorem control_valve_clamps_witness :
    ((-1 : ℚ) < 0 ∧
      control_valve ⟨⟨0, 10, 0, 0, []⟩, ⟨0, 0⟩⟩ (-1) =
        control_valve ⟨⟨0, 10, 0, 0, []⟩, ⟨0, 0⟩⟩ 0) ∧
    ((2 : ℚ) > 1 ∧
      control_valve ⟨⟨0, 10, 0, 0, []⟩, ⟨0, 0⟩⟩ 2 =
        control_valve ⟨⟨0, 10, 0, 0, []⟩, ⟨0, 0⟩⟩ 1) :=
  ⟨⟨by norm_num, (control_valve_clamps _ _).1 (by norm_num)⟩,
   ⟨by norm_num, (control_valve_clamps _ _).2 (by norm_num)⟩⟩

/-- **C1.** `control` examines the branches in the fixed order stop,
toggle, position, default, and executes exactly the first matching one:
stop returns the state untouched with no command; a present toggle reads
the current flow and drives to 1.0 below 0.5 and to 0.0 otherwise; a
present position drives to it via `control_valve`; otherwise it drives to
0.0. -/
theorem control_dispatch (s : SysState) (call : ValveCall) :
    (call.stop_ = true → control s call = (s, [])) ∧
    (call.stop_ = false → ∀ b, call.toggle_ = some b →
      control s call =
        control_valve s (if get_valve_state_val s < 1/2 then 1 else 0)) ∧
    (call.stop_ = false → call.toggle_ = none → ∀ f, call.position_ = some f →
      control s call = control_valve s f) ∧
    (call.stop_ = false → call.toggle_ = none → call.position_ = none →
      control s call = control_valve s 0) := by
  refine ⟨fun h => by simp [control, h], fun h b ht => ?_, fun h ht f hp => ?_,
    fun h ht hp => ?_⟩
  · simp [control, h, ht, get_valve_state]
  · simp [control, h, ht, hp]
  · simp [control, h, ht, hp]

/-- Witness for C1: the four branches at concrete calls. -/
theorem control_dispatch_witness :
    (control ⟨⟨0, 10, 3, 7, []⟩, ⟨0, 0⟩⟩ ⟨true, none, none⟩ =
      (⟨⟨0, 10, 3, 7, []⟩, ⟨0, 0⟩⟩, [])) ∧
    (control ⟨⟨0, 10, 3, 7, []⟩, ⟨0, 0⟩⟩ ⟨false, some true, none⟩ =
      control_valve ⟨⟨0, 10, 3, 7, []⟩, ⟨0, 0⟩⟩
        (if get_valve_state_val ⟨⟨0, 10, 3, 7, []⟩, ⟨0, 0⟩⟩ < 1/2 then 1 else 0)) ∧
    (control ⟨⟨0, 10, 3, 7, []⟩, ⟨0, 0⟩⟩ ⟨false, none, some (1/2)⟩ =
      control_valve ⟨⟨0, 10, 3, 7, []⟩, ⟨0, 0⟩⟩ (1/2)) ∧
    (control ⟨⟨0, 10, 3, 7, []⟩, ⟨0, 0⟩⟩ ⟨false, none, none⟩ =
      control_valve ⟨⟨0, 10, 3, 7, []⟩, ⟨0, 0⟩⟩ 0) :=
  ⟨(control_dispatch _ _).1 rfl,
   (control_dispatch _ _).2.1 rfl true rfl,
   (control_dispatch _ _).2.2.1 rfl rfl (1/2) rfl,
   (control_dispatch _ _).2.2.2 rfl rfl rfl⟩

/-- **C9.** When stop is not set and the toggle field is present, `control`
toggles regardless of the toggle field's boolean value: only presence is
examined. -/
theorem control_toggle_ignores_value (s : SysState) (b : Bool) (p : Option ℚ) :
    control s ⟨false, some b, p⟩ =
      control_valve s (if get_valve_state_val s < 1/2 then 1 else 0) := by
  simp [control, get_valve_state]

/-- **C10.** Frame conditions: no operation changes the valve's
configuration (four coordinates and curve); `get_valve_state` changes
nothing at all and issues no `set_target`; `control_valve`, `park_valve`
and `open_all_valve` each issue exactly one `set_target`. -/
theorem operations_frame (s : SysState) (f : ℚ) (call : ValveCall) :
    ((control_valve s f).1.valve = s.valve ∧ (control_valve s f).2.length = 1) ∧
    ((park_valve s).1.valve = s.valve ∧ (park_valve s).2.length = 1) ∧
    ((open_all_valve s).1.valve = s.valve ∧ (open_all_valve s).2.length = 1) ∧
    ((control s call).1.valve = s.valve) ∧
    ((get_valve_state s).1 = s ∧ (get_valve_state s).2.1 = ([] : List ℤ)) := by
  refine ⟨⟨rfl, rfl⟩, ⟨rfl, rfl⟩, ⟨rfl, rfl⟩, ?_, ⟨rfl, rfl⟩⟩
  obtain ⟨st, tg, po⟩ := call
  cases st
  · cases tg <;> cases po <;> simp [control, control_valve, get_valve_state]
  · simp [control]

/-- **C2 (amended).** Provided the open and closed coordinates differ and
every curve point's flow value lies in [0,1], `get_valve_state` is total
and returns a value in [0,1].  The coordinate hypothesis is not consumed by
the rational model (where division by zero is total); it marks the
zero-range configuration in which the C++ float normalization produces NaN
and the model and the source do not agree. -/
theorem get_valve_state_in_unit (s : SysState)
    (hoc : s.valve.pos_open_ ≠ s.valve.pos_closed_)
    (hall : ∀ r ∈ s.valve.mixer_curve_, 0 ≤ r.y ∧ r.y ≤ 1) :
    0 ≤ get_valve_state_val s ∧ get_valve_state_val s ≤ 1 := by
  simp only [get_valve_state_val]
  split_ifs with h1 h2 h3 h4
  · norm_num
  · norm_num
  · exact get_flow_bounds _ _ hall (le_refl 0) (by norm_num)
  · exact get_flow_bounds _ _ hall (by norm_num) (le_refl 1)
  · exact get_flow_bounds _ _ hall (le_of_not_lt h3) (le_of_not_lt h4)

/-- Witness for C2 at a concrete in-range configuration. -/
theorem get_valve_state_in_unit_witness :
    0 ≤ get_valve_state_val ⟨⟨0, 10, 0, 0, []⟩, ⟨5, 0⟩⟩ ∧
    get_valve_state_val ⟨⟨0, 10, 0, 0, []⟩, ⟨5, 0⟩⟩ ≤ 1 :=
  get_valve_state_in_unit ⟨⟨0, 10, 0, 0, []⟩, ⟨5, 0⟩⟩ (by norm_num) (by simp)

/-- Counterexample to C2 as stated: with a curve whose y values leave
[0,1] (closed 0, open 10000, curve [(0,0),(1,3)], current position 5000)
the returned flow is 3/2, outside [0,1]. -/
theorem get_valve_state_unit_cex :
    get_valve_state_val ⟨⟨0, 10000, 0, 0, [⟨0, 0⟩, ⟨1, 3⟩]⟩, ⟨5000, 0⟩⟩ = 3/2 ∧
    ¬ get_valve_state_val ⟨⟨0, 10000, 0, 0, [⟨0, 0⟩, ⟨1, 3⟩]⟩, ⟨5000, 0⟩⟩ ≤ 1 := by
  have h : get_valve_state_val ⟨⟨0, 10000, 0, 0, [⟨0, 0⟩, ⟨1, 3⟩]⟩, ⟨5000, 0⟩⟩ = 3/2 := by
    norm_num [get_valve_state_val, valve_tol, truncQ, get_flow, interp_segments,
      List.getLastD_cons, List.getLastD_nil]
  refine ⟨h, by rw [h]; norm_num⟩

/-- **C4.** For clamped flow inputs, `set_flow` commands the actuator
target `closed + p * (open - closed)` with `p` the curve's inverse
evaluation of the flow, truncated toward zero (ceiling for negative
values, floor otherwise — not rounding); in particular with closed=100 and
open=0 (reversed range), `set_flow 1` commands target 0 and `set_flow 0`
commands target 100. -/
theorem set_flow_target (s : SysState) (flow : ℚ) :
    (0 ≤ flow → flow ≤ 1 →
      control_valve s flow =
        ({ s with stepper := s.stepper.set_target (truncQ
            ((s.valve.pos_closed_ : ℚ) + get_pos s.valve.mixer_curve_ flow *
              ((s.valve.pos_open_ : ℚ) - (s.valve.pos_closed_ : ℚ)))) },
         [truncQ ((s.valve.pos_closed_ : ℚ) + get_pos s.valve.mixer_curve_ flow *
              ((s.valve.pos_open_ : ℚ) - (s.valve.pos_closed_ : ℚ)))])) ∧
    (∀ q : ℚ, truncQ q = if q < 0 then ⌈q⌉ else ⌊q⌋) ∧
    (control_valve ⟨⟨100, 0, 0, 0, []⟩, ⟨0, 0⟩⟩ 1).2 = [0] ∧
    (control_valve ⟨⟨100, 0, 0, 0, []⟩, ⟨0, 0⟩⟩ 0).2 = [100] := by
  refine ⟨fun h0 h1 => ?_, fun q => rfl, ?_, ?_⟩
  · simp only [control_valve, if_neg (not_lt.mpr h0), if_neg (not_lt.mpr h1)]
  · norm_num [control_valve, get_pos, truncQ]
  · norm_num [control_valve, get_pos, truncQ]

/-- Witness for C4 at flow 1/2 on the reversed range. -/
theorem set_flow_target_witness :
    control_valve ⟨⟨100, 0, 0, 0, []⟩, ⟨0, 0⟩⟩ (1/2) =
      ({ valve := ⟨100, 0, 0, 0, []⟩,
         stepper := Stepper.set_target ⟨0, 0⟩ (truncQ
           (((100 : ℤ) : ℚ) + get_pos [] (1/2) * (((0 : ℤ) : ℚ) - ((100 : ℤ) : ℚ)))) },
       [truncQ (((100 : ℤ) : ℚ) + get_pos [] (1/2) * (((0 : ℤ) : ℚ) - ((100 : ℤ) : ℚ)))]) :=
  (set_flow_target ⟨⟨100, 0, 0, 0, []⟩, ⟨0, 0⟩⟩ (1/2)).1 (by norm_num) (by norm_num)

/-- **C5.** `read_flow` computes tolerance `max 1 ⌊|open - closed| / 1000⌋`;
strictly within tolerance of the closed coordinate it returns exactly 0
(whatever the curve holds), else strictly within tolerance of the open
coordinate it returns exactly 1; with closed 0 and open 10000 (tolerance
10), current position 5 reads 0 and current position 15 reads a nonzero
value. -/
theorem read_flow_tolerance (s : SysState) :
    (valve_tol s.valve =
      max 1 ⌊|((s.valve.pos_open_ - s.valve.pos_closed_ : ℤ) : ℚ)| * (1/1000)⌋) ∧
    (|s.stepper.current_position - s.valve.pos_closed_| < valve_tol s.valve →
      get_valve_state_val s = 0) ∧
    (¬ |s.stepper.current_position - s.valve.pos_closed_| < valve_tol s.valve →
      |s.stepper.current_position - s.valve.pos_open_| < valve_tol s.valve →
      get_valve_state_val s = 1) ∧
    get_valve_state_val ⟨⟨0, 10000, 0, 0, []⟩, ⟨5, 0⟩⟩ = 0 ∧
    get_valve_state_val ⟨⟨0, 10000, 0, 0, []⟩, ⟨15, 0⟩⟩ ≠ 0 := by
  refine ⟨?_, fun h => ?_, fun h1 h2 => ?_, ?_, ?_⟩
  · have habs : (0 : ℚ) ≤ |((s.valve.pos_open_ - s.valve.pos_closed_ : ℤ) : ℚ)| * (1/1000) := by
      positivity
    simp only [valve_tol, truncQ]
    rw [if_neg (not_lt.mpr habs)]
    rcases lt_or_le ⌊|((s.valve.pos_open_ - s.valve.pos_closed_ : ℤ) : ℚ)| * (1/1000)⌋ 1 with h | h
    · rw [if_pos h, max_eq_left h.le]
    · rw [if_neg (not_lt.mpr h), max_eq_right h]
  · simp only [get_valve_state_val, if_pos h]
  · simp only [get_valve_state_val, if_neg h1, if_pos h2]
  · norm_num [get_valve_state_val, valve_tol, truncQ]
  · norm_num [get_valve_state_val, valve_tol, truncQ, get_flow]

/-- Witness for C5: the snap-to-0 and snap-to-1 branches at concrete
states. -/
theorem read_flow_tolerance_witness :
    get_valve_state_val ⟨⟨0, 10000, 20, 30, [⟨0, 0⟩, ⟨1, 1⟩]⟩, ⟨7, 0⟩⟩ = 0 ∧
    get_valve_state_val ⟨⟨0, 10000, 20, 30, [⟨0, 0⟩, ⟨1, 1⟩]⟩, ⟨9995, 0⟩⟩ = 1 :=
  ⟨(read_flow_tolerance ⟨⟨0, 10000, 20, 30, [⟨0, 0⟩, ⟨1, 1⟩]⟩, ⟨7, 0⟩⟩).2.1
      (by norm_num [valve_tol, truncQ]),
   (read_flow_tolerance ⟨⟨0, 10000, 20, 30, [⟨0, 0⟩, ⟨1, 1⟩]⟩, ⟨9995, 0⟩⟩).2.2.1
      (by norm_num [valve_tol, truncQ]) (by norm_num [valve_tol, truncQ])⟩

/-- **C6 (amended).** Forward and inverse evaluation never divide by zero,
on any curve and input (the defensive evaluator always succeeds with the
source's value); and at the coordinate of a degenerate (zero-width)
segment that is interior — every earlier point strictly below it, the last
point strictly above it — evaluation returns the degenerate segment's
start value. -/
theorem degenerate_segments :
    (∀ (curve : List CurvePoint) (x : ℚ), get_flowD curve x = some (get_flow curve x)) ∧
    (∀ (curve : List CurvePoint) (y : ℚ), get_posD curve y = some (get_pos curve y)) ∧
    (∀ (pre suf : List CurvePoint) (c y0 y1 : ℚ),
      (∀ p ∈ pre, p.x < c) → c < (suf.getLastD ⟨c, y1⟩).x →
      get_flow (pre ++ ⟨c, y0⟩ :: ⟨c, y1⟩ :: suf) c = y0) ∧
    (∀ (pre suf : List CurvePoint) (c x0 x1 : ℚ),
      (∀ p ∈ pre, p.y < c) → c < (suf.getLastD ⟨x1, c⟩).y →
      get_pos (pre ++ ⟨x0, c⟩ :: ⟨x1, c⟩ :: suf) c = x0) :=
  ⟨get_flowD_eq, get_posD_eq,
   fun pre suf c y0 y1 h1 h2 => get_flow_at_degenerate pre suf c y0 y1 h1 h2,
   fun pre suf c x0 x1 h1 h2 => get_pos_at_degenerate pre suf c x0 x1 h1 h2⟩

/-- Witness for C6: interior degenerate segments at x = 1/2 (resp. y = 1/2). -/
theorem degenerate_segments_witness :
    get_flow [⟨0, 0⟩, ⟨1/2, 1/4⟩, ⟨1/2, 3/4⟩, ⟨1, 1⟩] (1/2) = 1/4 ∧
    get_pos [⟨0, 0⟩, ⟨1/4, 1/2⟩, ⟨3/4, 1/2⟩, ⟨1, 1⟩] (1/2) = 1/4 :=
  ⟨degenerate_segments.2.2.1 [⟨0, 0⟩] [⟨1, 1⟩] (1/2) (1/4) (3/4)
      (by norm_num) (by norm_num [List.getLastD_cons, List.getLastD_nil]),
   degenerate_segments.2.2.2 [⟨0, 0⟩] [⟨1, 1⟩] (1/2) (1/4) (3/4)
      (by norm_num) (by norm_num [List.getLastD_cons, List.getLastD_nil])⟩

/-- Counterexample to C6 as stated: the curve [(0,0), (1,1/2), (1,1)s]
contains the degenerate segment between its last two points (equal x = 1,
start value 1/2), yet `get_flow` at that x returns the last point's value
1, not the start value 1/2. -/
theorem degenerate_tail_cex :
    (CurvePoint.mk 1 (1/2)).x = (CurvePoint.mk 1 1).x ∧
    get_flow [⟨0, 0⟩, ⟨1, 1/2⟩, ⟨1, 1⟩] 1 = 1 ∧ (1 : ℚ) ≠ 1/2 := by
  refine ⟨rfl, ?_, by norm_num⟩
  norm_num [get_flow, List.getLastD_cons, List.getLastD_nil]

/-- **C7.** The default built-in calibration curve has 11 points at
x = 0.0, 0.1, ..., 1.0, its forward evaluation is non-decreasing in x, and
it passes through (0.5, 0.5) exactly. -/
theorem default_curve_props :
    mixer_curve.length = 11 ∧
    mixer_curve.map CurvePoint.x =
      [0, 1/10, 2/10, 3/10, 4/10, 1/2, 6/10, 7/10, 8/10, 9/10, 1] ∧
    (∀ x1 x2 : ℚ, x1 ≤ x2 → get_flow mixer_curve x1 ≤ get_flow mixer_curve x2) ∧
    get_flow mixer_curve (1/2) = 1/2 := by
  have hc : List.Chain' curveR mixer_curve := by
    norm_num [mixer_curve, curveR, List.chain'_cons]
  refine ⟨rfl, by norm_num [mixer_curve], fun x1 x2 h => get_flow_mono mixer_curve hc h, ?_⟩
  norm_num [mixer_curve, get_flow, interp_segments, List.getLastD_cons, List.getLastD_nil]

/-- Witness for C7's monotonicity at 1/4 ≤ 3/4. -/
theorem default_curve_props_witness :
    (1 : ℚ)/4 ≤ 3/4 ∧ get_flow mixer_curve (1/4) ≤ get_flow mixer_curve (3/4) :=
  ⟨by norm_num, default_curve_props.2.2.1 (1/4) (3/4) (by norm_num)⟩

end three_way_valve
